import Mathlib

/-!
Verification of the finite-field type from src/gf.rs of meonal/competitive-rs.

The type GF<P> stores a single u64 residue; P is a type-level constant modulus.
We embed it shallowly: the modulus is a Nat parameter p, a field element is the
stored u64 residue (a Nat), and every operation that funnels through
GF::new::<u64> is Option-valued, with none modelling the panic of
v.try_into().ok().unwrap() when the intermediate u64 value does not fit in i64.
Raw u64 arithmetic is modelled with release-mode (wrapping, mod 2^64)
semantics; the places where wrapping can actually occur are exactly the places
where debug builds would panic, and every claim below is settled in a regime
where the two semantics agree or where both fail.
-/

set_option maxRecDepth 4000

namespace GFSpec

/-- 2^64, the modulus of wrapping u64 arithmetic. -/
def U64MOD : Nat := 18446744073709551616

/-- 2^63, the first value above i64::MAX; TryInto<i64> from u64 fails at and
above it, and i64 values live in [-I64MAXP1, I64MAXP1). -/
def I64MAXP1 : Nat := 9223372036854775808

/-- Wrapping u64 addition. -/
def wadd (x y : Nat) : Nat := (x + y) % U64MOD

/-- Wrapping u64 multiplication. -/
def wmul (x y : Nat) : Nat := (x * y) % U64MOD

/-- Wrapping u64 subtraction. -/
def wsub (x y : Nat) : Nat := (x + (U64MOD - y % U64MOD)) % U64MOD

/-- Rust's i64::rem_euclid from core: r = self % rhs (truncating remainder,
Lean's Int.tmod); if r < 0 the result is r + rhs.abs(), else r. -/
def remEuclid (v m : Int) : Int :=
  let r := Int.tmod v m
  if r < 0 then r + (m.natAbs : Int) else r

/-- The x as u64 two's-complement cast of an i64 value. -/
def u64Cast (x : Int) : Nat := (x % (U64MOD : Int)).toNat

namespace GF

/-- GF::<P>::new on a value already inside the i64 range (the unwrap has
succeeded): Self(v.rem_euclid(P::to_i64()) as u64). -/
def new (p : Nat) (v : Int) : Nat := u64Cast (remEuclid v (p : Int))

/-- GF::<P>::new through its TryInto<i64> bound: v.try_into().ok().unwrap()
panics (modelled as none) when v lies outside the i64 range. This is also the
path every u64 intermediate of the arithmetic operators takes. -/
def newCk (p : Nat) (v : Int) : Option Nat :=
  if -(I64MAXP1 : Int) ≤ v ∧ v < (I64MAXP1 : Int) then some (new p v) else none

/-- impl Add for GF<P>: Self::new(self.0 + rhs.into().0). -/
def add (p a b : Nat) : Option Nat := newCk p (wadd a b)

/-- impl Sub for GF<P>: Self::new(self.0 + P::to_u64() - rhs.into().0),
left to right: the wrapping sum a + p first, then the wrapping difference. -/
def sub (p a b : Nat) : Option Nat := newCk p (wsub (wadd a p) b)

/-- impl Mul for GF<P>: Self::new(self.0 * rhs.into().0): a plain u64
multiplication, no widening to u128. -/
def mul (p a b : Nat) : Option Nat := newCk p (wmul a b)

/-- The while loop of GF::pow. fuel bounds the remaining iteration count: r at
least halves every iteration, so fuel = r suffices; fuel = 0 forces r = 0 under
that invariant and both exits return ret, matching the loop condition r > 0.
Each iteration first multiplies the accumulator by the base when the low bit of
r is set, then halves r and squares the base (the squaring happens even on the
final iteration, exactly as in the source). -/
def powGo (p : Nat) : Nat → Nat → Nat → Nat → Option Nat
  | 0, _, _, ret => some ret
  | fuel + 1, k, r, ret =>
    if r = 0 then some ret
    else
      (if r % 2 ≠ 0 then mul p ret k else some ret).bind fun ret2 =>
        (mul p k k).bind fun k2 =>
          powGo p fuel k2 (r / 2) ret2

/-- GF::pow(self, r): ret starts at GF::new(1), k starts at self, then the
square-and-multiply loop over the bits of r, least significant first. -/
def pow (p a r : Nat) : Option Nat := powGo p r a r (new p 1)

/-- GF::recip: self.pow(P::to_u64() - 2); documented to require P prime. -/
def recip (p a : Nat) : Option Nat := pow p a (p - 2)

/-- impl Div for GF<P>: self * rhs.into().recip() (the inverse is computed
first; a panic there propagates). -/
def div (p a b : Nat) : Option Nat := (recip p b).bind (fun rb => mul p a rb)

/-- impl Neg for GF<P>: Self::new(0) - self. -/
def neg (p a : Nat) : Option Nat := sub p (new p 0) a

end GF

/-- impl Add<GF<P>> for a raw integer type (def_ops! macro):
GF::<P>::new(self) + rhs. The raw operand n is given as the mathematical
integer value it denotes; promotion goes through the same TryInto<i64> bound
as any other construction. -/
def leftAdd (p : Nat) (n : Int) (x : Nat) : Option Nat :=
  (GF.newCk p n).bind (fun a => GF.add p a x)

/-- impl Sub<GF<P>> for a raw integer type: GF::<P>::new(self) - rhs. -/
def leftSub (p : Nat) (n : Int) (x : Nat) : Option Nat :=
  (GF.newCk p n).bind (fun a => GF.sub p a x)

/-- impl Mul<GF<P>> for a raw integer type: GF::<P>::new(self) * rhs. -/
def leftMul (p : Nat) (n : Int) (x : Nat) : Option Nat :=
  (GF.newCk p n).bind (fun a => GF.mul p a x)

/-- impl Div<GF<P>> for a raw integer type: GF::<P>::new(self) / rhs. -/
def leftDiv (p : Nat) (n : Int) (x : Nat) : Option Nat :=
  (GF.newCk p n).bind (fun a => GF.div p a x)

/-- Verification device (not part of the source embedding): kernel-computable
binary modular exponentiation over unbounded Nat, used only to check Lucas
primality certificates for the concrete moduli of the counterexamples. -/
def mpowGo (p : Nat) : Nat → Nat → Nat → Nat → Nat
  | 0, _, _, ret => ret
  | fuel + 1, k, r, ret =>
    if r = 0 then ret
    else mpowGo p fuel (k * k % p) (r / 2) (if r % 2 = 1 then ret * k % p else ret)

/-- Verification device: mpow p g e computes g ^ e % p by repeated squaring. -/
def mpow (p g e : Nat) : Nat := mpowGo p e (g % p) e (1 % p)

/-! ### Reduction lemmas: Rust's rem_euclid is the Euclidean remainder -/

theorem remEuclid_eq_emod (v : Int) (p : Nat) (hp : 0 < p) :
    remEuclid v (p : Int) = v % (p : Int) := by
  unfold remEuclid
  have hp' : (0 : Int) < (p : Int) := by exact_mod_cast hp
  have hcong : Int.tmod v (p : Int) % (p : Int) = v % (p : Int) := by
    conv_rhs => rw [← Int.tmod_add_tdiv v (p : Int)]
    rw [Int.add_mul_emod_self_left]
  have hub : Int.tmod v (p : Int) < (p : Int) := Int.tmod_lt_of_pos v hp'
  by_cases h : Int.tmod v (p : Int) < 0
  · simp only [h, if_pos]
    have hlb : -(p : Int) < Int.tmod v (p : Int) := by
      match v with
      | Int.ofNat m =>
          have h0 : (0 : Int) ≤ Int.tmod (Int.ofNat m) (p : Int) :=
            Int.tmod_nonneg _ (Int.ofNat_nonneg m)
          omega
      | Int.negSucc m =>
          have heq : Int.tmod (Int.negSucc m) (p : Int) = -(((m + 1) % p : Nat) : Int) := rfl
          have hmod : (m + 1) % p < p := Nat.mod_lt _ hp
          omega
    have habs : ((((p : Int).natAbs : Nat) : Int)) = (p : Int) := by
      simp [Int.natAbs_ofNat]
    rw [habs, ← hcong]
    have h1 : Int.tmod v (p : Int) % (p : Int)
        = (Int.tmod v (p : Int) + (p : Int) * 1) % (p : Int) := by
      rw [Int.add_mul_emod_self_left]
    rw [h1, Int.mul_one, Int.emod_eq_of_lt (by omega) (by omega)]
  · simp only [h, if_neg, if_false]
    rw [← hcong, Int.emod_eq_of_lt (by omega) hub]

theorem u64Cast_of_nonneg (x : Int) (hx : 0 ≤ x) : u64Cast x = x.toNat % U64MOD := by
  unfold u64Cast U64MOD
  omega

theorem new_eq (p : Nat) (hp : 0 < p) (v : Int) :
    GF.new p v = (v % (p : Int)).toNat % U64MOD := by
  unfold GF.new
  rw [remEuclid_eq_emod v p hp]
  exact u64Cast_of_nonneg _ (Int.emod_nonneg v (by exact_mod_cast Nat.pos_iff_ne_zero.mp hp))

theorem new_lt (p : Nat) (hp : 0 < p) (v : Int) : GF.new p v < p := by
  rw [new_eq p hp v]
  have h1 : 0 ≤ v % (p : Int) := Int.emod_nonneg v (by exact_mod_cast Nat.pos_iff_ne_zero.mp hp)
  have h2 : v % (p : Int) < (p : Int) := Int.emod_lt_of_pos v (by exact_mod_cast hp)
  unfold U64MOD
  omega

theorem new_natCast (p n : Nat) (hp : 0 < p) : GF.new p (n : Int) = n % p % U64MOD := by
  rw [new_eq p hp]
  have h1 : ((n : Int)) % ((p : Nat) : Int) = ((n % p : Nat) : Int) := by
    push_cast
    ring_nf
  rw [h1, Int.toNat_natCast]

theorem new_natCast_small (p n : Nat) (hp : 0 < p) (hn : n < U64MOD) :
    GF.new p (n : Int) = n % p := by
  rw [new_natCast p n hp]
  exact Nat.mod_eq_of_lt (Nat.lt_of_le_of_lt (Nat.mod_le n p) hn)

/-! ### Lemmas about the checked constructor -/

theorem newCk_some_of_inrange (p : Nat) {v : Int} (h1 : -(I64MAXP1 : Int) ≤ v)
    (h2 : v < (I64MAXP1 : Int)) : GF.newCk p v = some (GF.new p v) := by
  unfold GF.newCk
  rw [if_pos ⟨h1, h2⟩]

theorem newCk_none_of_large (p : Nat) {v : Int} (h : (I64MAXP1 : Int) ≤ v) :
    GF.newCk p v = none := by
  unfold GF.newCk
  rw [if_neg]
  intro hcon
  omega

theorem newCk_natCast_some (p n : Nat) (hp : 0 < p) (hn : n < I64MAXP1) :
    GF.newCk p (n : Int) = some (n % p) := by
  rw [newCk_some_of_inrange p (by unfold I64MAXP1; omega) (by exact_mod_cast hn)]
  rw [new_natCast_small p n hp (by unfold I64MAXP1 at hn; unfold U64MOD; omega)]

theorem newCk_lt (p : Nat) (hp : 0 < p) {v : Int} {r : Nat}
    (h : GF.newCk p v = some r) : r < p := by
  unfold GF.newCk at h
  by_cases hc : -(I64MAXP1 : Int) ≤ v ∧ v < (I64MAXP1 : Int)
  · rw [if_pos hc] at h
    cases h
    exact new_lt p hp v
  · rw [if_neg hc] at h
    cases h

/-! ### The multiplication path -/

theorem mul_ok (p a b : Nat) (hp : 0 < p) (hab : a * b < I64MAXP1) :
    GF.mul p a b = some (a * b % p) := by
  unfold GF.mul wmul
  have hlt : a * b < U64MOD := by
    unfold I64MAXP1 at hab
    unfold U64MOD
    omega
  rw [Nat.mod_eq_of_lt hlt]
  exact newCk_natCast_some p (a * b) hp hab

theorem mul_some_lt (p : Nat) (hp : 0 < p) {a b r : Nat}
    (h : GF.mul p a b = some r) : r < p := by
  unfold GF.mul at h
  exact newCk_lt p hp h

theorem mul_zero_right (p a : Nat) (hp : 0 < p) : GF.mul p a 0 = some 0 := by
  have h := mul_ok p a 0 hp (by unfold I64MAXP1; omega)
  rwa [Nat.mul_zero, Nat.zero_mod] at h

/-! ### The exponentiation loop -/

theorem powGo_succ (p fuel k r ret : Nat) (hr : r ≠ 0) :
    GF.powGo p (fuel + 1) k r ret =
      (if r % 2 ≠ 0 then GF.mul p ret k else some ret).bind fun ret2 =>
        (GF.mul p k k).bind fun k2 =>
          GF.powGo p fuel k2 (r / 2) ret2 := by
  rw [GF.powGo, if_neg hr]

theorem powGo_r_zero (p fuel k ret : Nat) : GF.powGo p fuel k 0 ret = some ret := by
  cases fuel with
  | zero => rfl
  | succ fuel => rw [GF.powGo, if_pos rfl]

theorem powGo_ok (p : Nat) (hp : 0 < p) (hpp : p * p < I64MAXP1) :
    ∀ fuel r k ret, r ≤ fuel → k < p → ret < p →
      GF.powGo p fuel k r ret = some (ret * k ^ r % p) := by
  intro fuel
  induction fuel with
  | zero =>
      intro r k ret hr hk hret
      have hr0 : r = 0 := Nat.le_zero.mp hr
      subst hr0
      rw [powGo_r_zero, pow_zero, Nat.mul_one, Nat.mod_eq_of_lt hret]
  | succ fuel ih =>
      intro r k ret hr hk hret
      by_cases hr0 : r = 0
      · subst hr0
        rw [powGo_r_zero, pow_zero, Nat.mul_one, Nat.mod_eq_of_lt hret]
      · rw [powGo_succ p fuel k r ret hr0]
        have hkk : GF.mul p k k = some (k * k % p) :=
          mul_ok p k k hp (lt_of_lt_of_le (by nlinarith) (le_of_lt hpp))
        have hrfuel : r / 2 ≤ fuel := by omega
        have hkklt : k * k % p < p := Nat.mod_lt _ hp
        by_cases hodd : r % 2 ≠ 0
        · have hretk : GF.mul p ret k = some (ret * k % p) :=
            mul_ok p ret k hp (lt_of_lt_of_le (by nlinarith) (le_of_lt hpp))
          rw [if_pos hodd, hretk, Option.some_bind, hkk, Option.some_bind]
          rw [ih (r / 2) (k * k % p) (ret * k % p) hrfuel hkklt (Nat.mod_lt _ hp)]
          refine congrArg some ?_
          have hcong : (ret * k % p) * ((k * k % p) ^ (r / 2)) ≡
              (ret * k) * ((k * k) ^ (r / 2)) [MOD p] :=
            (Nat.mod_modEq (ret * k) p).mul ((Nat.mod_modEq (k * k) p).pow (r / 2))
          have hsplit : (ret * k) * ((k * k) ^ (r / 2)) = ret * k ^ r := by
            rw [show k * k = k ^ 2 from (pow_two k).symm, ← pow_mul]
            rw [show ret * k * k ^ (2 * (r / 2)) = ret * k ^ (2 * (r / 2) + 1) from by ring]
            rw [show 2 * (r / 2) + 1 = r from by omega]
          rw [← hsplit]
          exact hcong
        · rw [if_neg hodd, Option.some_bind, hkk, Option.some_bind]
          rw [ih (r / 2) (k * k % p) ret hrfuel hkklt hret]
          refine congrArg some ?_
          have hcong : ret * ((k * k % p) ^ (r / 2)) ≡
              ret * ((k * k) ^ (r / 2)) [MOD p] :=
            (Nat.ModEq.refl ret).mul ((Nat.mod_modEq (k * k) p).pow (r / 2))
          have hsplit : ret * ((k * k) ^ (r / 2)) = ret * k ^ r := by
            rw [show k * k = k ^ 2 from (pow_two k).symm, ← pow_mul]
            rw [show 2 * (r / 2) = r from by omega]
          rw [← hsplit]
          exact hcong

theorem pow_ok (p a e : Nat) (hp : 0 < p) (hpp : p * p < I64MAXP1) (ha : a < p) :
    GF.pow p a e = some (a ^ e % p) := by
  unfold GF.pow
  have h1 : GF.new p 1 = 1 % p := new_natCast_small p 1 hp (by unfold U64MOD; omega)
  rw [h1, powGo_ok p hp hpp e e a (1 % p) le_rfl ha (Nat.mod_lt 1 hp)]
  congr 1
  calc (1 % p) * a ^ e % p = 1 * a ^ e % p := (Nat.mod_modEq 1 p).mul_right (a ^ e)
    _ = a ^ e % p := by rw [Nat.one_mul]

theorem powGo_some_lt (p : Nat) (hp : 0 < p) :
    ∀ fuel k r ret out, ret < p → GF.powGo p fuel k r ret = some out → out < p := by
  intro fuel
  induction fuel with
  | zero =>
      intro k r ret out hret h
      rw [GF.powGo] at h
      cases h
      exact hret
  | succ fuel ih =>
      intro k r ret out hret h
      by_cases hr0 : r = 0
      · subst hr0
        rw [powGo_r_zero] at h
        cases h
        exact hret
      · rw [powGo_succ p fuel k r ret hr0] at h
        rcases Option.bind_eq_some.mp h with ⟨ret2, hret2, h2⟩
        rcases Option.bind_eq_some.mp h2 with ⟨k2, hk2, h3⟩
        have hret2lt : ret2 < p := by
          by_cases hodd : r % 2 ≠ 0
          · rw [if_pos hodd] at hret2
            exact mul_some_lt p hp hret2
          · rw [if_neg hodd] at hret2
            cases hret2
            exact hret
        exact ih k2 (r / 2) ret2 out hret2lt h3

theorem pow_some_lt (p : Nat) (hp : 0 < p) {a e out : Nat}
    (h : GF.pow p a e = some out) : out < p := by
  unfold GF.pow at h
  exact powGo_some_lt p hp e a e (GF.new p 1) out (new_lt p hp 1) h

/-- With base 0 and a positive exponent the loop multiplies the accumulator by
0 at the first set bit of r, so it returns the zero element. -/
theorem powGo_zero_base (p : Nat) (hp : 0 < p) :
    ∀ fuel r ret, r ≤ fuel → 1 ≤ r → GF.powGo p fuel 0 r ret = some 0 := by
  intro fuel
  induction fuel with
  | zero =>
      intro r ret hr h1
      omega
  | succ fuel ih =>
      intro r ret hr h1
      have hr0 : r ≠ 0 := by omega
      rw [powGo_succ p fuel 0 r ret hr0]
      have h00 : GF.mul p 0 0 = some 0 := mul_zero_right p 0 hp
      by_cases hodd : r % 2 ≠ 0
      · rw [if_pos hodd, mul_zero_right p ret hp, Option.some_bind, h00, Option.some_bind]
        by_cases hhalf : r / 2 = 0
        · rw [hhalf, powGo_r_zero]
        · exact ih (r / 2) 0 (by omega) (by omega)
      · rw [if_neg hodd, Option.some_bind, h00, Option.some_bind]
        have hhalf : 1 ≤ r / 2 := by omega
        exact ih (r / 2) ret (by omega) hhalf

/-! ### The subtraction path -/

theorem sub_ok (p a b : Nat) (hp : 0 < p) (hp62 : 2 * p ≤ I64MAXP1)
    (ha : a < p) (hb : b < p) : GF.sub p a b = some ((a + p - b) % p) := by
  unfold GF.sub wsub wadd
  unfold I64MAXP1 at hp62
  have hU : (a + p) % U64MOD = a + p := by
    apply Nat.mod_eq_of_lt
    unfold U64MOD
    omega
  have hbU : b % U64MOD = b := by
    apply Nat.mod_eq_of_lt
    unfold U64MOD
    omega
  rw [hU, hbU]
  have heq : (a + p + (U64MOD - b)) % U64MOD = a + p - b := by
    unfold U64MOD
    omega
  rw [heq]
  exact newCk_natCast_some p _ hp (by unfold I64MAXP1; omega)

/-! ### Fermat's little theorem instantiated for recip -/

theorem fermat_pow_sub_two (p a : Nat) (hp : Nat.Prime p) (ha0 : 0 < a) (ha : a < p) :
    a * a ^ (p - 2) % p = 1 := by
  have hp2 : 2 ≤ p := hp.two_le
  have hnotdvd : ¬p ∣ a := by
    intro hdvd
    exact absurd (Nat.le_of_dvd ha0 hdvd) (by omega)
  have hcop : Nat.Coprime a p :=
    Nat.Coprime.symm ((Nat.Prime.coprime_iff_not_dvd hp).mpr hnotdvd)
  have hfer : a ^ (p - 1) ≡ 1 [MOD p] := by
    have h := Nat.ModEq.pow_totient hcop
    rwa [Nat.totient_prime hp] at h
  have hsucc : a * a ^ (p - 2) = a ^ (p - 1) := by
    rw [show p - 1 = (p - 2) + 1 from by omega, pow_succ']
  rw [hsucc]
  have h1 : a ^ (p - 1) % p = 1 % p := hfer
  rw [h1, Nat.mod_eq_of_lt (by omega)]

theorem recip_bind_mul (p a : Nat) (hp : Nat.Prime p) (hpp : p * p < I64MAXP1)
    (ha0 : 0 < a) (ha : a < p) :
    (GF.recip p a).bind (fun r => GF.mul p a r) = some 1 := by
  have hppos : 0 < p := hp.pos
  unfold GF.recip
  rw [pow_ok p a (p - 2) hppos hpp ha, Option.some_bind]
  have hres : a ^ (p - 2) % p < p := Nat.mod_lt _ hppos
  rw [mul_ok p a _ hppos (lt_of_lt_of_le (by nlinarith) (le_of_lt hpp))]
  refine congrArg some ?_
  have hcong : a * (a ^ (p - 2) % p) ≡ a * a ^ (p - 2) [MOD p] :=
    (Nat.ModEq.refl a).mul (Nat.mod_modEq _ p)
  calc a * (a ^ (p - 2) % p) % p = a * a ^ (p - 2) % p := hcong
    _ = 1 := fermat_pow_sub_two p a hp ha0 ha

theorem div_bind_mul_cancel (p c b : Nat) (hp : Nat.Prime p) (hpp : p * p < I64MAXP1)
    (hc : c < p) (hb0 : 0 < b) (hb : b < p) :
    (GF.div p c b).bind (fun q => GF.mul p q b) = some c := by
  have hppos : 0 < p := hp.pos
  unfold GF.div GF.recip
  rw [pow_ok p b (p - 2) hppos hpp hb, Option.some_bind]
  have hrblt : b ^ (p - 2) % p < p := Nat.mod_lt _ hppos
  rw [mul_ok p c _ hppos (lt_of_lt_of_le (by nlinarith) (le_of_lt hpp)), Option.some_bind]
  have hqlt : c * (b ^ (p - 2) % p) % p < p := Nat.mod_lt _ hppos
  rw [mul_ok p _ b hppos (lt_of_lt_of_le (by nlinarith) (le_of_lt hpp))]
  refine congrArg some ?_
  have hferm : b * b ^ (p - 2) ≡ 1 [MOD p] := by
    show b * b ^ (p - 2) % p = 1 % p
    rw [fermat_pow_sub_two p b hp hb0 hb, Nat.mod_eq_of_lt hp.one_lt]
  have hmain : (c * (b ^ (p - 2) % p) % p) * b ≡ c [MOD p] := by
    calc (c * (b ^ (p - 2) % p) % p) * b
        ≡ (c * (b ^ (p - 2) % p)) * b [MOD p] := (Nat.mod_modEq _ p).mul_right b
      _ ≡ (c * b ^ (p - 2)) * b [MOD p] :=
          (((Nat.ModEq.refl c).mul (Nat.mod_modEq _ p)).mul_right b)
      _ = c * (b * b ^ (p - 2)) := by ring
      _ ≡ c * 1 [MOD p] := (Nat.ModEq.refl c).mul hferm
      _ = c := by ring
  have hfin : (c * (b ^ (p - 2) % p) % p) * b % p = c % p := hmain
  rw [hfin, Nat.mod_eq_of_lt hc]

/-! ### Lucas primality certificates for the large counterexample moduli -/

theorem mpowGo_r_zero (p fuel k ret : Nat) : mpowGo p fuel k 0 ret = ret := by
  cases fuel with
  | zero => rfl
  | succ fuel => rw [mpowGo, if_pos rfl]

theorem mpowGo_ok (p : Nat) (hp : 0 < p) :
    ∀ fuel r k ret, r ≤ fuel → ret < p → mpowGo p fuel k r ret = ret * k ^ r % p := by
  intro fuel
  induction fuel with
  | zero =>
      intro r k ret hr hret
      have hr0 : r = 0 := Nat.le_zero.mp hr
      subst hr0
      rw [mpowGo_r_zero, pow_zero, Nat.mul_one, Nat.mod_eq_of_lt hret]
  | succ fuel ih =>
      intro r k ret hr hret
      by_cases hr0 : r = 0
      · subst hr0
        rw [mpowGo_r_zero, pow_zero, Nat.mul_one, Nat.mod_eq_of_lt hret]
      · rw [mpowGo, if_neg hr0]
        have hrfuel : r / 2 ≤ fuel := by omega
        by_cases hodd : r % 2 = 1
        · rw [if_pos hodd, ih (r / 2) (k * k % p) (ret * k % p) hrfuel (Nat.mod_lt _ hp)]
          have hcong : (ret * k % p) * ((k * k % p) ^ (r / 2)) ≡
              (ret * k) * ((k * k) ^ (r / 2)) [MOD p] :=
            (Nat.mod_modEq (ret * k) p).mul ((Nat.mod_modEq (k * k) p).pow (r / 2))
          have hsplit : (ret * k) * ((k * k) ^ (r / 2)) = ret * k ^ r := by
            rw [show k * k = k ^ 2 from (pow_two k).symm, ← pow_mul]
            rw [show ret * k * k ^ (2 * (r / 2)) = ret * k ^ (2 * (r / 2) + 1) from by ring]
            rw [show 2 * (r / 2) + 1 = r from by omega]
          rw [← hsplit]
          exact hcong
        · rw [if_neg hodd, ih (r / 2) (k * k % p) ret hrfuel hret]
          have hcong : ret * ((k * k % p) ^ (r / 2)) ≡
              ret * ((k * k) ^ (r / 2)) [MOD p] :=
            (Nat.ModEq.refl ret).mul ((Nat.mod_modEq (k * k) p).pow (r / 2))
          have hsplit : ret * ((k * k) ^ (r / 2)) = ret * k ^ r := by
            rw [show k * k = k ^ 2 from (pow_two k).symm, ← pow_mul]
            rw [show 2 * (r / 2) = r from by omega]
          rw [← hsplit]
          exact hcong

theorem mpow_ok (p g e : Nat) (hp : 0 < p) : mpow p g e = g ^ e % p := by
  unfold mpow
  rw [mpowGo_ok p hp e e (g % p) (1 % p) le_rfl (Nat.mod_lt _ hp)]
  calc (1 % p) * ((g % p) ^ e) % p
      = 1 * g ^ e % p := (Nat.mod_modEq 1 p).mul ((Nat.mod_modEq g p).pow e)
    _ = g ^ e % p := by rw [Nat.one_mul]

theorem prime_eq_of_dvd_prime_pow {q r n : Nat} (hq : Nat.Prime q) (hr : Nat.Prime r)
    (h : q ∣ r ^ n) : q = r :=
  (Nat.prime_dvd_prime_iff_eq hq hr).mp (hq.dvd_of_dvd_pow h)

theorem lucas_cert_2357 (p g a b c d : Nat) (hp2 : 2 ≤ p)
    (hfac : p - 1 = 2 ^ a * 3 ^ b * 5 ^ c * 7 ^ d)
    (h1 : mpow p g (p - 1) = 1)
    (h2 : mpow p g ((p - 1) / 2) ≠ 1)
    (h3 : mpow p g ((p - 1) / 3) ≠ 1)
    (h5 : mpow p g ((p - 1) / 5) ≠ 1)
    (h7 : mpow p g ((p - 1) / 7) ≠ 1) : Nat.Prime p := by
  have hp1 : 1 < p := hp2
  haveI : Fact (1 < p) := ⟨hp1⟩
  have hp0 : 0 < p := by omega
  have hcast : ∀ e : Nat, ((g : Nat) : ZMod p) ^ e = ((mpow p g e : Nat) : ZMod p) := by
    intro e
    rw [mpow_ok p g e hp0, ZMod.natCast_mod, Nat.cast_pow]
  apply lucas_primality p ((g : Nat) : ZMod p)
  · rw [hcast (p - 1), h1, Nat.cast_one]
  · intro q hq hdvd
    have hql : q = 2 ∨ q = 3 ∨ q = 5 ∨ q = 7 := by
      rw [hfac] at hdvd
      rcases (Nat.Prime.dvd_mul hq).mp hdvd with h' | h'
      · rcases (Nat.Prime.dvd_mul hq).mp h' with h'' | h''
        · rcases (Nat.Prime.dvd_mul hq).mp h'' with h3' | h3'
          · exact Or.inl (prime_eq_of_dvd_prime_pow hq Nat.prime_two h3')
          · exact Or.inr (Or.inl (prime_eq_of_dvd_prime_pow hq Nat.prime_three h3'))
        · exact Or.inr (Or.inr (Or.inl (prime_eq_of_dvd_prime_pow hq Nat.prime_five h'')))
      · exact Or.inr (Or.inr (Or.inr (prime_eq_of_dvd_prime_pow hq (by norm_num) h')))
    have hne : mpow p g ((p - 1) / q) ≠ 1 := by
      rcases hql with rfl | rfl | rfl | rfl
      · exact h2
      · exact h3
      · exact h5
      · exact h7
    rw [hcast ((p - 1) / q)]
    intro hcon
    apply hne
    have hvlt : mpow p g ((p - 1) / q) < p := by
      rw [mpow_ok p g _ hp0]
      exact Nat.mod_lt _ hp0
    have hval := congrArg ZMod.val hcon
    rwa [ZMod.val_cast_of_lt hvlt, ZMod.val_one p] at hval

theorem prime_3086294401 : Nat.Prime 3086294401 := by
  apply lucas_cert_2357 3086294401 26 7 9 2 2
  · norm_num
  · norm_num
  · decide
  · decide
  · decide
  · decide
  · decide

theorem prime_4614257812500000001 : Nat.Prime 4614257812500000001 := by
  apply lucas_cert_2357 4614257812500000001 11 8 3 20 1
  · norm_num
  · norm_num
  · decide
  · decide
  · decide
  · decide
  · decide

/-! ### Claim theorems -/

/-- C1 (counterexample): the claim asserts that for every modulus p and
canonical a, b the product is the canonical residue of a * b mod p, the
implementation guarding against intermediate overflow. At the prime modulus
p = 3086294401 with a = b = p - 1 the u64 product (p-1)^2 exceeds the i64
range, so GF::mul panics (none) instead of returning the residue 1: the code
multiplies in 64 bits with no widening. -/
theorem c1_mul_requires_widening_counterexample :
    Nat.Prime 3086294401 ∧
    GF.mul 3086294401 3086294400 3086294400 ≠
      some (3086294400 * 3086294400 % 3086294401) ∧
    GF.mul 3086294401 3086294400 3086294400 = none :=
  ⟨prime_3086294401, by decide, by decide⟩

/-- C1 (amended): for canonical residues a, b < p whose exact product fits in
the signed 64-bit range (a * b < 2^63, guaranteed for every pair when
(p-1)^2 < 2^63, i.e. p ≤ 3037000499), GF::mul returns the canonical residue of
a * b mod p; no widening beyond 64 bits is performed, so 64-bit-range moduli
are not supported. -/
theorem c1_mul_amended (p a b : Nat) (hp : 0 < p) (ha : a < p) (hb : b < p)
    (hab : a * b < I64MAXP1) : GF.mul p a b = some (a * b % p) :=
  mul_ok p a b hp hab

/-- C1 witness: 3 * 4 = 5 in GF(7). -/
theorem c1_mul_amended_witness : GF.mul 7 3 4 = some 5 := by
  have h := c1_mul_amended 7 3 4 (by decide) (by decide) (by decide) (by decide)
  exact h.trans (by decide)

/-- C2: for every i64-representable v, GF::new stores the Euclidean
(always-nonnegative) remainder of v modulo p; in particular
new(-1) = p - 1, new(p) = 0 and new(k * p + r) = r for 0 ≤ r < p. -/
theorem c2_new_euclidean (p : Nat) (v k r : Int) (hp : 0 < p)
    (hpI : (p : Int) < (I64MAXP1 : Int))
    (hv1 : -(I64MAXP1 : Int) ≤ v) (hv2 : v < (I64MAXP1 : Int))
    (hr1 : 0 ≤ r) (hr2 : r < (p : Int))
    (hk1 : -(I64MAXP1 : Int) ≤ k * (p : Int) + r)
    (hk2 : k * (p : Int) + r < (I64MAXP1 : Int)) :
    GF.newCk p v = some (v % (p : Int)).toNat ∧
    GF.newCk p (-1) = some (p - 1) ∧
    GF.newCk p (p : Int) = some 0 ∧
    GF.newCk p (k * (p : Int) + r) = some r.toNat := by
  have hsmall : ∀ w : Int, -(I64MAXP1 : Int) ≤ w → w < (I64MAXP1 : Int) →
      GF.newCk p w = some (w % (p : Int)).toNat := by
    intro w hw1 hw2
    rw [newCk_some_of_inrange p hw1 hw2, new_eq p hp w]
    have h1 : 0 ≤ w % (p : Int) :=
      Int.emod_nonneg w (by exact_mod_cast Nat.pos_iff_ne_zero.mp hp)
    have h2 : w % (p : Int) < (p : Int) := Int.emod_lt_of_pos w (by exact_mod_cast hp)
    have h3 : (w % (p : Int)).toNat % U64MOD = (w % (p : Int)).toNat := by
      apply Nat.mod_eq_of_lt
      unfold U64MOD
      unfold I64MAXP1 at hpI
      omega
    rw [h3]
  refine ⟨hsmall v hv1 hv2, ?_, ?_, ?_⟩
  · rw [hsmall (-1) (by unfold I64MAXP1; omega) (by unfold I64MAXP1; omega)]
    have hm1 : (-1 : Int) % (p : Int) = (p : Int) - 1 := by
      rw [show (-1 : Int) = ((p : Int) - 1) + (p : Int) * (-1) from by ring,
        Int.add_mul_emod_self_left, Int.emod_eq_of_lt (by omega) (by omega)]
    rw [hm1]
    refine congrArg some ?_
    omega
  · rw [hsmall (p : Int) (by unfold I64MAXP1; omega) hpI, Int.emod_self]
    rfl
  · rw [hsmall (k * (p : Int) + r) hk1 hk2]
    rw [show k * (p : Int) + r = r + (p : Int) * k from by ring,
      Int.add_mul_emod_self_left, Int.emod_eq_of_lt hr1 hr2]

/-- C2 witness: in GF(7), new(-9) = 5 = new((-2) * 7 + 5), new(-1) = 6,
new(7) = 0. -/
theorem c2_new_euclidean_witness :
    GF.newCk 7 (-9) = some 5 ∧ GF.newCk 7 (-1) = some 6 ∧
    GF.newCk 7 ((7 : Nat) : Int) = some 0 ∧ GF.newCk 7 ((-2) * 7 + 5) = some 5 := by
  have h := c2_new_euclidean 7 (-9) (-2) 5 (by decide) (by decide) (by decide)
    (by decide) (by decide) (by decide) (by decide) (by decide)
  exact ⟨h.1.trans (by decide), h.2.1.trans (by decide), h.2.2.1,
    h.2.2.2.trans (by decide)⟩

/-- C3 (counterexample): the claim asserts pow(e) equals the canonical residue
of a^e mod p for every field element and exponent. At the prime modulus
p = 3086294401 with a = p - 1 and e = 2 the squaring of the base overflows the
i64 range, so GF::pow panics (none) instead of returning the residue 1. -/
theorem c3_pow_counterexample :
    Nat.Prime 3086294401 ∧
    GF.pow 3086294401 3086294400 2 ≠ some (3086294400 ^ 2 % 3086294401) ∧
    GF.pow 3086294401 3086294400 2 = none :=
  ⟨prime_3086294401, by decide, by decide⟩

/-- C3 (amended): when every intermediate product of canonical residues fits
in the signed 64-bit range (p * p < 2^63), GF::pow computes the canonical
residue of a^e mod p by least-to-most-significant-bit square-and-multiply; in
particular pow(0) = 1 % p for every base including 0, and for p = 1000000007,
new(2).pow(100) = 976371285. -/
theorem c3_pow_amended (p a e : Nat) (hp : 0 < p) (hpp : p * p < I64MAXP1)
    (ha : a < p) : GF.pow p a e = some (a ^ e % p) :=
  pow_ok p a e hp hpp ha

/-- C3 witness: the concrete scenario of the spec, 2^100 = 976371285 in
GF(1000000007). -/
theorem c3_pow_amended_witness : GF.pow 1000000007 2 100 = some 976371285 := by
  have h := c3_pow_amended 1000000007 2 100 (by decide) (by decide) (by decide)
  exact h.trans (by decide)

/-- C4 (counterexample): the claim asserts a * a.recip() == 1 for every prime
modulus and nonzero a. At the prime modulus p = 3086294401 with a = p - 1 the
Fermat exponentiation inside recip overflows the i64 range and panics (none),
so a * a.recip() is not 1. -/
theorem c4_recip_counterexample :
    Nat.Prime 3086294401 ∧
    (GF.recip 3086294401 3086294400).bind
      (fun r => GF.mul 3086294401 3086294400 r) ≠ some 1 :=
  ⟨prime_3086294401, by decide⟩

/-- C4 (amended): for a prime modulus small enough that no intermediate
product overflows (p * p < 2^63), recip is the multiplicative inverse of every
nonzero element via Fermat's little theorem, and (c / b) * b = c for every c
and nonzero b. -/
theorem c4_recip_amended (p a c b : Nat) (hp : Nat.Prime p)
    (hpp : p * p < I64MAXP1) (ha0 : 0 < a) (ha : a < p) (hc : c < p)
    (hb0 : 0 < b) (hb : b < p) :
    (GF.recip p a).bind (fun r => GF.mul p a r) = some 1 ∧
    (GF.div p c b).bind (fun q => GF.mul p q b) = some c :=
  ⟨recip_bind_mul p a hp hpp ha0 ha, div_bind_mul_cancel p c b hp hpp hc hb0 hb⟩

/-- C4 witness: in GF(7), 3 * 3.recip() = 1 and (5 / 2) * 2 = 5. -/
theorem c4_recip_amended_witness :
    (GF.recip 7 3).bind (fun r => GF.mul 7 3 r) = some 1 ∧
    (GF.div 7 5 2).bind (fun q => GF.mul 7 q 2) = some 5 :=
  c4_recip_amended 7 3 5 2 (by norm_num) (by decide) (by decide) (by decide)
    (by decide) (by decide) (by decide)

/-- C5 (counterexample): the claim asserts a - b is always the canonical
residue of (a - b) mod p. At the prime modulus p = 4614257812500000001
(just above 2^62) with a = p - 1 and b = 0, the intermediate a + p - b = 2p - 1
exceeds the i64 range, so GF::sub panics (none) instead of returning p - 1. -/
theorem c5_sub_counterexample :
    Nat.Prime 4614257812500000001 ∧
    GF.sub 4614257812500000001 4614257812500000000 0 ≠
      some ((((4614257812500000000 : Int) - 0) % (4614257812500000001 : Int)).toNat) ∧
    GF.sub 4614257812500000001 4614257812500000000 0 = none :=
  ⟨prime_4614257812500000001, by decide, by decide⟩

/-- C5 (amended): for moduli with 2p ≤ 2^63 (so a + p - b stays in the i64
range) and canonical a, b < p, GF::sub returns the canonical residue of
(a - b) mod p, computed without underflow as a + p - b then reduced. -/
theorem c5_sub_amended (p a b : Nat) (hp : 0 < p) (hple : 2 * p ≤ I64MAXP1)
    (ha : a < p) (hb : b < p) :
    GF.sub p a b = some ((((a : Int) - (b : Int)) % (p : Int)).toNat) ∧
    GF.sub p a b = some ((a + p - b) % p) := by
  have h2 := sub_ok p a b hp hple ha hb
  refine ⟨?_, h2⟩
  rw [h2]
  refine congrArg some ?_
  have hcast : ((a + p - b : Nat) : Int) = (a : Int) - (b : Int) + (p : Int) := by omega
  have h3 : ((a : Int) - (b : Int)) % (p : Int) = ((a + p - b : Nat) : Int) % (p : Int) := by
    rw [hcast, show (a : Int) - (b : Int) + (p : Int)
      = (a : Int) - (b : Int) + (p : Int) * 1 from by ring, Int.add_mul_emod_self_left]
  have h4 : ((a + p - b : Nat) : Int) % ((p : Nat) : Int) = (((a + p - b) % p : Nat) : Int) :=
    (Int.ofNat_emod (a + p - b) p).symm
  rw [h3, h4, Int.toNat_natCast]

/-- C5 witness: 2 - 5 = 4 in GF(7). -/
theorem c5_sub_amended_witness : GF.sub 7 2 5 = some 4 := by
  have h := c5_sub_amended 7 2 5 (by decide) (by decide) (by decide) (by decide)
  exact h.2.trans (by decide)

/-- C6: every element observable from construction or from any arithmetic
operation that completes (does not panic) carries a canonical residue in
[0, p): intermediates are reduced modulo p before being stored. -/
theorem c6_range_invariant (p : Nat) (hp : 0 < p) :
    (∀ v r, GF.newCk p v = some r → r < p) ∧
    (∀ a b r, GF.add p a b = some r → r < p) ∧
    (∀ a b r, GF.sub p a b = some r → r < p) ∧
    (∀ a b r, GF.mul p a b = some r → r < p) ∧
    (∀ a b r, GF.div p a b = some r → r < p) ∧
    (∀ a r, GF.neg p a = some r → r < p) ∧
    (∀ a e r, GF.pow p a e = some r → r < p) ∧
    (∀ a r, GF.recip p a = some r → r < p) := by
  refine ⟨?_, ?_, ?_, ?_, ?_, ?_, ?_, ?_⟩
  · intro v r h
    exact newCk_lt p hp h
  · intro a b r h
    unfold GF.add at h
    exact newCk_lt p hp h
  · intro a b r h
    unfold GF.sub at h
    exact newCk_lt p hp h
  · intro a b r h
    unfold GF.mul at h
    exact newCk_lt p hp h
  · intro a b r h
    unfold GF.div at h
    rcases Option.bind_eq_some.mp h with ⟨rb, _, h2⟩
    exact mul_some_lt p hp h2
  · intro a r h
    unfold GF.neg GF.sub at h
    exact newCk_lt p hp h
  · intro a e r h
    exact pow_some_lt p hp h
  · intro a r h
    unfold GF.recip at h
    exact pow_some_lt p hp h

/-- C6 witness: in GF(7), 3 + 5 completes with residue 1 < 7. -/
theorem c6_range_invariant_witness : GF.add 7 3 5 = some 1 ∧ 1 < 7 :=
  ⟨by decide, (c6_range_invariant 7 (by decide)).2.1 3 5 1 (by decide)⟩

/-- C7: construction from an integer that does not fit in i64 is fatal
(the unwrap panics, modelled by none), while construction from any
i64-representable value always succeeds. -/
theorem c7_new_out_of_range_fatal (p n : Nat) (v : Int) (hp : 0 < p)
    (hn : I64MAXP1 ≤ n) (hv1 : -(I64MAXP1 : Int) ≤ v) (hv2 : v < (I64MAXP1 : Int)) :
    GF.newCk p (n : Int) = none ∧ GF.newCk p v = some (GF.new p v) := by
  constructor
  · exact newCk_none_of_large p (by exact_mod_cast hn)
  · exact newCk_some_of_inrange p hv1 hv2

/-- C7 witness: in GF(7), new of the u64 value 2^63 panics while new(5)
succeeds. -/
theorem c7_new_out_of_range_fatal_witness :
    GF.newCk 7 ((9223372036854775808 : Nat) : Int) = none ∧
    GF.newCk 7 5 = some (GF.new 7 5) := by
  have h := c7_new_out_of_range_fatal 7 9223372036854775808 5 (by decide)
    (by decide) (by decide) (by decide)
  exact ⟨h.1, h.2⟩

/-- C8: a raw integer on the left of an arithmetic operator is promoted
exactly as GF::new(n) op x for each of the four operators, and 1 + x = x + 1. -/
theorem c8_symmetric_promotion (p : Nat) (n : Int) (x : Nat) (hp : 0 < p)
    (hn1 : -(I64MAXP1 : Int) ≤ n) (hn2 : n < (I64MAXP1 : Int)) :
    leftAdd p n x = GF.add p (GF.new p n) x ∧
    leftSub p n x = GF.sub p (GF.new p n) x ∧
    leftMul p n x = GF.mul p (GF.new p n) x ∧
    leftDiv p n x = GF.div p (GF.new p n) x ∧
    leftAdd p 1 x = GF.add p x (GF.new p 1) := by
  have hck : GF.newCk p n = some (GF.new p n) := newCk_some_of_inrange p hn1 hn2
  have hck1 : GF.newCk p 1 = some (GF.new p 1) :=
    newCk_some_of_inrange p (by unfold I64MAXP1; omega) (by unfold I64MAXP1; omega)
  refine ⟨?_, ?_, ?_, ?_, ?_⟩
  · unfold leftAdd
    rw [hck, Option.some_bind]
  · unfold leftSub
    rw [hck, Option.some_bind]
  · unfold leftMul
    rw [hck, Option.some_bind]
  · unfold leftDiv
    rw [hck, Option.some_bind]
  · unfold leftAdd
    rw [hck1, Option.some_bind]
    unfold GF.add wadd
    rw [Nat.add_comm (GF.new p 1) x]

/-- C8 witness: in GF(7), 3 + x for x = 2 agrees with new(3) + x, and
1 + x = x + 1. -/
theorem c8_symmetric_promotion_witness :
    leftAdd 7 3 2 = GF.add 7 (GF.new 7 3) 2 ∧ leftAdd 7 1 2 = GF.add 7 2 (GF.new 7 1) := by
  have h := c8_symmetric_promotion 7 3 2 (by decide) (by decide) (by decide)
  exact ⟨h.1, h.2.2.2.2⟩

/-- C9: canonicalization is idempotent: constructing from the stored residue
of new(v) yields the same element as new(v). -/
theorem c9_roundtrip (p : Nat) (v : Int) (hp : 0 < p) (hpI : p < I64MAXP1)
    (hv1 : -(I64MAXP1 : Int) ≤ v) (hv2 : v < (I64MAXP1 : Int)) :
    GF.newCk p ((GF.new p v : Nat) : Int) = some (GF.new p v) := by
  have hlt : GF.new p v < p := new_lt p hp v
  rw [newCk_natCast_some p (GF.new p v) hp (lt_trans hlt hpI)]
  rw [Nat.mod_eq_of_lt hlt]

/-- C9 witness: round-trip at v = -9 in GF(7). -/
theorem c9_roundtrip_witness :
    GF.newCk 7 ((GF.new 7 (-9) : Nat) : Int) = some (GF.new 7 (-9)) :=
  c9_roundtrip 7 (-9) (by decide) (by decide) (by decide) (by decide)

/-- C10: for p ≥ 3 the inverse of the zero element is deterministic and
non-panicking: new(0).recip() evaluates via pow(p - 2) to the zero element,
hence a / new(0) = new(0) = 0 for every field element a. -/
theorem c10_zero_recip (p a : Nat) (hp3 : 3 ≤ p) (ha : a < p) :
    GF.recip p (GF.new p 0) = some 0 ∧ GF.div p a (GF.new p 0) = some 0 := by
  have hp : 0 < p := by omega
  have h0 : GF.new p 0 = 0 := by
    have h := new_natCast_small p 0 hp (by unfold U64MOD; omega)
    simpa using h
  have h1 : GF.new p 1 = 1 := by
    have h := new_natCast_small p 1 hp (by unfold U64MOD; omega)
    rw [Nat.mod_eq_of_lt (show 1 < p from by omega)] at h
    simpa using h
  have hrec : GF.recip p 0 = some 0 := by
    unfold GF.recip GF.pow
    rw [h1]
    exact powGo_zero_base p hp (p - 2) (p - 2) 1 le_rfl (by omega)
  constructor
  · rw [h0]
    exact hrec
  · rw [h0]
    unfold GF.div
    rw [hrec, Option.some_bind]
    exact mul_zero_right p a hp

/-- C10 witness: in GF(7), new(0).recip() = 0 and 3 / new(0) = 0. -/
theorem c10_zero_recip_witness :
    GF.recip 7 (GF.new 7 0) = some 0 ∧ GF.div 7 3 (GF.new 7 0) = some 0 :=
  c10_zero_recip 7 3 (by decide) (by decide)

end GFSpec
